import Mathlib

/-!
Shallow embedding of the core of the Wawelet-Online repository
(signal generator, ring buffer, plugin registry, wavelet transform
front-ends), with theorems checking the specification's claims.

Python floats are modelled by rationals, numpy arrays by lists, and
Python dicts by insertion-ordered association lists.
-/

namespace Wavelet

/-! ## Association lists with Python-dict semantics -/

/-- Python dict assignment `d[k] = v`: replace the value in place if the key
is present, otherwise append the new pair at the end. -/
def dictSet {β : Type} : List (String × β) → String → β → List (String × β)
  | [], k, v => [(k, v)]
  | (k', v') :: t, k, v =>
      if k' = k then (k, v) :: t else (k', v') :: dictSet t k v

/-- Python dict lookup `d.get(k)`. -/
def dictGet {β : Type} : List (String × β) → String → Option β
  | [], _ => none
  | (k', v') :: t, k => if k' = k then some v' else dictGet t k

/-- Python `d.get(k, default)`. -/
def dictGetD {β : Type} (d : List (String × β)) (k : String) (v₀ : β) : β :=
  (dictGet d k).getD v₀

/-- Python `d.update(new)`: fold the assignments of `new` into `d`. -/
def dictUpdate {β : Type} (d new : List (String × β)) : List (String × β) :=
  new.foldl (fun acc kv => dictSet acc kv.1 kv.2) d

/-- Python `k in d`. -/
def dictMem {β : Type} (d : List (String × β)) (k : String) : Bool :=
  (dictGet d k).isSome

/-! ## RingBuffer (src/core/ring_buffer.py) -/

/-- Numpy slice assignment `buf[i:i+len(x)] = x` (used only with
`i + len(x) ≤ len(buf)`). -/
def setSlice {α : Type} (buf : List α) (i : Nat) (x : List α) : List α :=
  buf.take i ++ x ++ buf.drop (i + x.length)

/-- State of `RingBuffer`: fixed capacity, storage, write cursor, fill count. -/
structure RingBuffer (α : Type) where
  capacity : Nat
  buf : List α
  write : Nat
  filled : Nat
deriving Repr, DecidableEq

/-- `RingBuffer.__init__`: zeroed storage of length `capacity`. -/
def RingBuffer.init (α : Type) [Zero α] (capacity : Nat) : RingBuffer α :=
  ⟨capacity, List.replicate capacity 0, 0, 0⟩

/-- `RingBuffer.clear`: zero the storage, reset cursor and fill count. -/
def RingBuffer.clear {α : Type} [Zero α] (rb : RingBuffer α) : RingBuffer α :=
  { rb with buf := List.replicate rb.capacity 0, write := 0, filled := 0 }

/-- `RingBuffer.append`.  The overflow branch (`len(x) >= capacity`) keeps only
the last `capacity` input samples; otherwise the input is written at the
cursor, split in two when it crosses the end of the storage.  Python's
`(write - n) % capacity` arithmetic is rendered with natural numbers. -/
def RingBuffer.append {α : Type} (rb : RingBuffer α) (x : List α) : RingBuffer α :=
  let n := x.length
  if n = 0 then rb
  else if rb.capacity ≤ n then
    { rb with buf := x.drop (n - rb.capacity), write := 0, filled := rb.capacity }
  else
    let e := rb.write + n
    let buf' :=
      if e ≤ rb.capacity then setSlice rb.buf rb.write x
      else
        let k := rb.capacity - rb.write
        setSlice (setSlice rb.buf rb.write (x.take k)) 0 (x.drop k)
    { rb with buf := buf', write := e % rb.capacity,
              filled := min rb.capacity (rb.filled + n) }

/-- `RingBuffer.get_last`: the most recent `min n filled` samples in
chronological order, as one contiguous slice or a tail-then-head
concatenation.  `(write - m) % capacity` is rendered as
`(write + capacity - m) % capacity`. -/
def RingBuffer.get_last {α : Type} (rb : RingBuffer α) (n : Nat) : List α :=
  let m := min n rb.filled
  if m = 0 then []
  else
    let start := (rb.write + rb.capacity - m) % rb.capacity
    if start < rb.write then (rb.buf.drop start).take (rb.write - start)
    else rb.buf.drop start ++ rb.buf.take rb.write

/-- The last `n` elements of a list. -/
def lastN {α : Type} (l : List α) (n : Nat) : List α :=
  l.drop (l.length - n)

/-- Appending a sequence of batches in order. -/
def appendAll {α : Type} (rb : RingBuffer α) (xss : List (List α)) : RingBuffer α :=
  xss.foldl RingBuffer.append rb

/-! ## Parameter values and component schemas
(src/core/schema.py, src/signal/components/) -/

/-- A Python parameter value: float, int, string or bool. -/
inductive PValue
  | f (q : ℚ)
  | i (n : ℤ)
  | s (v : String)
  | b (v : Bool)
deriving DecidableEq, Repr

/-- A Python parameter dict (insertion-ordered association list). -/
abbrev Params := List (String × PValue)

/-- Python `float(v)` on a numeric/bool value.  (`float` on a string raises;
string values never reach the numeric parameters this model evaluates.) -/
def pyFloat : PValue → ℚ
  | .f q => q
  | .i n => (n : ℚ)
  | .b true => 1
  | .b false => 0
  | .s _ => 0

/-- Python `int(v)` on a numeric/bool value (floats truncate toward zero). -/
def pyInt : PValue → ℤ
  | .f q => if 0 ≤ q then ⌊q⌋ else ⌈q⌉
  | .i n => n
  | .b true => 1
  | .b false => 0
  | .s _ => 0

/-- `ParamSpec` (src/core/schema.py), restricted to the fields the modelled
operations consume: `key` and `default`.  (`label`, `min`, `max`, `step`,
`choices`, `description`, `examples` are display-only and never read by the
engine or the components.) -/
structure ParamSpec where
  key : String
  default : PValue
deriving DecidableEq, Repr

/-- The five built-in component kinds (src/signal/components/__init__.py). -/
inductive CompKind
  | noise
  | sine
  | rect_pulse
  | gauss_pulse
  | chirp
deriving DecidableEq, Repr

/-- Component class attribute `TYPE`. -/
def CompKind.TYPE : CompKind → String
  | .noise => "noise"
  | .sine => "sine"
  | .rect_pulse => "rect_pulse"
  | .gauss_pulse => "gauss_pulse"
  | .chirp => "chirp"

/-- Component class attribute `NAME`. -/
def CompKind.NAME : CompKind → String
  | .noise => "Шум (гауссов)"
  | .sine => "Синусоида"
  | .rect_pulse => "Прямоугольные импульсы"
  | .gauss_pulse => "Гауссовы импульсы"
  | .chirp => "Чирп-свип (линейная развертка)"

/-- The `BUILTIN_COMPONENTS` registry (dict from `TYPE` string to class). -/
def BUILTIN_COMPONENTS (s : String) : Option CompKind :=
  if s = "noise" then some .noise
  else if s = "sine" then some .sine
  else if s = "rect_pulse" then some .rect_pulse
  else if s = "gauss_pulse" then some .gauss_pulse
  else if s = "chirp" then some .chirp
  else none

/-- `schema()` of each component class: keys and defaults as in the source. -/
def CompKind.schema : CompKind → List ParamSpec
  | .noise =>
      [⟨"mean", .f 0⟩, ⟨"sigma", .f 0.2⟩, ⟨"seed", .i 0⟩]
  | .sine =>
      [⟨"amplitude", .f 1⟩, ⟨"frequency", .f 5⟩, ⟨"phase", .f 0⟩,
       ⟨"dc", .f 0⟩, ⟨"smooth_ms", .i 150⟩]
  | .rect_pulse =>
      [⟨"amplitude", .f 1⟩, ⟨"width_sec", .f 0.02⟩, ⟨"period_sec", .f 0.3⟩,
       ⟨"start_time_sec", .f 0⟩]
  | .gauss_pulse =>
      [⟨"amplitude", .f 1⟩, ⟨"sigma_sec", .f 0.01⟩, ⟨"center_time_sec", .f 1⟩,
       ⟨"repetition_period_sec", .f 0⟩]
  | .chirp =>
      [⟨"amplitude", .f 0.8⟩, ⟨"f0", .f 10⟩, ⟨"f1", .f 200⟩,
       ⟨"duration_sec", .f 2⟩, ⟨"start_time_sec", .f 0⟩]

/-- `ComponentState` (src/signal/components/base.py). -/
structure ComponentState where
  enabled : Bool
  params : Params
deriving DecidableEq, Repr

/-- A component held by the engine: its class (kind) and its state.  The
waveform a component produces is supplied separately as a generator
semantics `CompKind → ComponentState → ...` when chunks are generated,
mirroring method dispatch on the class. -/
structure Component where
  kind : CompKind
  state : ComponentState
deriving DecidableEq, Repr

/-- The generator semantics: for each kind, `generate(t0, n, fs)` as a
function of the component's state. -/
abbrev GenSem := CompKind → ComponentState → ℚ → ℕ → ℚ → List ℚ

/-! ## SignalEngine (src/signal/signal_engine.py) -/

/-- `MAX_CHUNK` (pre-allocated buffer bound). -/
def MAX_CHUNK : ℕ := 131072

/-- `SignalEngine` state: globals, paused flag, clock sample counter
(`RealtimeClock._samples`), ordered component list. -/
structure SignalEngine where
  fs : ℚ
  chunk_size : ℕ
  amplitude_clip : ℚ
  paused : Bool
  clock : ℕ
  components : List Component
deriving DecidableEq, Repr

def SignalEngine.is_paused (e : SignalEngine) : Bool := e.paused

def SignalEngine.play (e : SignalEngine) : SignalEngine := { e with paused := false }

def SignalEngine.pause (e : SignalEngine) : SignalEngine := { e with paused := true }

/-- `remove_component`: pop at `idx` only when `0 <= idx < len(components)`. -/
def SignalEngine.remove_component (e : SignalEngine) (idx : ℤ) : SignalEngine :=
  if 0 ≤ idx ∧ idx < e.components.length then
    { e with components := e.components.eraseIdx idx.toNat }
  else e

/-- `set_component_enabled`: set the flag only when the index is in range. -/
def SignalEngine.set_component_enabled (e : SignalEngine) (idx : ℤ) (enabled : Bool) :
    SignalEngine :=
  if 0 ≤ idx ∧ idx < e.components.length then
    { e with components := (e.components.modify
        (fun c => { c with state := { c.state with enabled := enabled } }) idx.toNat) }
  else e

/-- `update_component_params`: merge params only when the index is in range. -/
def SignalEngine.update_component_params (e : SignalEngine) (idx : ℤ) (params : Params) :
    SignalEngine :=
  if 0 ≤ idx ∧ idx < e.components.length then
    { e with components := (e.components.modify
        (fun c => { c with state := { c.state with
          params := dictUpdate c.state.params params } }) idx.toNat) }
  else e

/-- One entry of `snapshot_components()`. -/
structure SnapEntry where
  type : String
  name : String
  enabled : Bool
  params : Params
deriving DecidableEq, Repr

/-- `snapshot_components`. -/
def SignalEngine.snapshot_components (e : SignalEngine) : List SnapEntry :=
  e.components.map fun c => ⟨c.kind.TYPE, c.kind.NAME, c.state.enabled, c.state.params⟩

/-- The default-filling loop in `replace_components`: for each schema entry, if
its key is absent from the params, assign the default. -/
def fillDefaults (schema : List ParamSpec) (ps : Params) : Params :=
  schema.foldl (fun acc s => if dictMem acc s.key then acc else dictSet acc s.key s.default) ps

/-- `replace_components`: clear, then rebuild from the preset-style list,
skipping unknown kinds and backfilling missing parameter keys. -/
def SignalEngine.replace_components (e : SignalEngine) (snap : List SnapEntry) :
    SignalEngine :=
  { e with components := snap.foldl (fun acc c =>
      match BUILTIN_COMPONENTS c.type with
      | none => acc
      | some cls => acc ++ [⟨cls, ⟨c.enabled, fillDefaults cls.schema c.params⟩⟩]) [] }

/-- The accumulation loop of `generate_chunk`: sum every component's
`generate(t0, n, fs)` into a zero-initialized buffer of length `n`. -/
def SignalEngine.sumChunk (gen : GenSem) (e : SignalEngine) (t0 : ℚ) (n : ℕ) (fs : ℚ) :
    List ℚ :=
  e.components.foldl (fun acc c => List.zipWith (· + ·) acc (gen c.kind c.state t0 n fs))
    (List.replicate n 0)

/-- `generate_chunk`: returns `(chunk, t0)` and the engine after the call
(the clock advanced by `n` when not paused).  `np.clip(x, -clip, clip)` is
elementwise `min clip (max (-clip) v)`; it runs only when `clip > 0`. -/
def SignalEngine.generate_chunk (gen : GenSem) (e : SignalEngine) :
    (List ℚ × ℚ) × SignalEngine :=
  let t0 : ℚ := (e.clock : ℚ) / e.fs
  if e.paused then (([], t0), e)
  else
    let n := min e.chunk_size MAX_CHUNK
    let x := e.sumChunk gen t0 n e.fs
    let x := if 0 < e.amplitude_clip
      then x.map (fun v => min e.amplitude_clip (max (-e.amplitude_clip) v))
      else x
    ((x, t0), { e with clock := e.clock + n })

/-! ## SineComponent smoothing state (src/signal/components/sine.py) -/

/-- The tone component's smoothing state: `state` plus the `_cur`/`_target`
parameter dicts. -/
structure SineComponent where
  state : ComponentState
  cur : Params
  target : Params
deriving DecidableEq, Repr

/-- `SineComponent.__init__`: `_cur` and `_target` start as copies of the
state's params. -/
def SineComponent.init (state : ComponentState) : SineComponent :=
  ⟨state, state.params, state.params⟩

/-- `SineComponent.update_params`: update `_target`, then the base class
updates `state.params`. -/
def SineComponent.update_params (c : SineComponent) (new : Params) : SineComponent :=
  { c with target := dictUpdate c.target new,
           state := { c.state with params := dictUpdate c.state.params new } }

/-- `SineComponent._smooth(key, alpha)`:
`cur[key] = c + alpha * (t - c)` with `c = float(cur.get(key, 0.0))` and
`t = float(target.get(key, c))`. -/
def SineComponent.smooth (cur target : Params) (key : String) (alpha : ℚ) : Params :=
  let c := pyFloat (dictGetD cur key (.f 0))
  let t := pyFloat (dictGetD target key (.f c))
  dictSet cur key (.f (c + alpha * (t - c)))

/-- The state effect of `SineComponent.generate` (the parameter-smoothing
block).  The returned waveform `dc + A*sin(2*pi*f*t + phase)` is
transcendental and is not consumed by any modelled operation, so only the
smoothing-state transition is embedded here. -/
def SineComponent.generateStep (c : SineComponent) (n : ℕ) (fs : ℚ) : SineComponent :=
  if c.state.enabled = false then c
  else
    let smooth_ms : ℤ := pyInt (dictGetD c.state.params "smooth_ms" (.i 150))
    let c₁ := if smooth_ms ≤ 0 then { c with cur := c.target } else c
    let alpha : ℚ := if smooth_ms ≤ 0 then 1
      else min 1 (((n : ℚ) / fs) / ((smooth_ms : ℚ) / 1000))
    { c₁ with cur :=
        SineComponent.smooth (SineComponent.smooth (SineComponent.smooth
          (SineComponent.smooth c₁.cur c₁.target "amplitude" alpha)
          c₁.target "frequency" alpha) c₁.target "phase" alpha) c₁.target "dc" alpha }

/-! ## PluginManager (src/core/plugin_manager.py) -/

/-- A plugin module's `PLUGIN_META` dict (string-valued fields). -/
abbrev Meta := List (String × String)

/-- A Python exception (only its occurrence matters to the registry). -/
abbrev PyErr := String

/-- The `WaveletPlugin` class a module exposes: instantiating it either
raises or yields a plugin object (identified here by a number). -/
structure PluginCls where
  mk_obj : Except PyErr Nat
deriving Repr

/-- What a candidate module exposes once imported: the `WaveletPlugin`
attribute and the `PLUGIN_META` attribute, either possibly absent. -/
structure PyModule where
  plugin_cls : Option PluginCls
  plugin_meta : Option Meta
deriving Repr

/-- A loadable candidate: importing (or reloading) it either raises or
yields a module. -/
structure Candidate where
  modname : String
  imported : Except PyErr PyModule
deriving Repr

/-- `PluginInfo` (the `module` field is represented by the module name). -/
structure PluginInfo where
  id : String
  meta : Meta
  module : String
  plugin_obj : Nat
deriving DecidableEq, Repr

/-- The wavelet-plugin registry dict. -/
abbrev Registry := List (String × PluginInfo)

/-- The try-block of `_load_wavelet_module` up to instantiation: `none` when
any step raises — import failure, missing `PLUGIN_META` or `WaveletPlugin`
(the explicit `ValueError`), or a constructor exception. -/
def tryLoad (c : Candidate) : Option (Meta × Nat) :=
  match c.imported with
  | .error _ => none
  | .ok mod =>
    match mod.plugin_cls, mod.plugin_meta with
    | some cls, some meta =>
        match cls.mk_obj with
        | .error _ => none
        | .ok obj => some (meta, obj)
    | _, _ => none

/-- `_load_wavelet_module`: on success register under the declared id
`meta.get("id", plugin_id)`, and additionally under the fallback `plugin_id`
when the two differ; on any exception, log and leave the registry
unchanged. -/
def load_wavelet_module (reg : Registry) (c : Candidate) (plugin_id : String) :
    Registry :=
  match tryLoad c with
  | none => reg
  | some (meta, obj) =>
      let pid := dictGetD meta "id" plugin_id
      let reg₁ := if pid ≠ plugin_id
        then dictSet reg plugin_id ⟨pid, meta, c.modname, obj⟩ else reg
      dictSet reg₁ pid ⟨pid, meta, c.modname, obj⟩

/-- The loading loop of `reload_all` over `(candidate, fallback id)` pairs
(the fixed built-in list followed by the external folder scan). -/
def loadModules (reg : Registry) (cands : List (Candidate × String)) : Registry :=
  cands.foldl (fun r p => load_wavelet_module r p.1 p.2) reg

/-- `reload_all`: clear the registry, then load every candidate. -/
def reload_all (cands : List (Candidate × String)) : Registry :=
  loadModules [] cands

/-- `get_wavelet`. -/
def get_wavelet (reg : Registry) (plugin_id : String) : Option PluginInfo :=
  dictGet reg plugin_id

/-! ## Wavelet transform front-ends (src/wavelets/builtins/) -/

/-- `WaveletResult` (src/core/wavelet_result.py); the open `meta` annotation
dict is display-only and omitted. -/
structure WaveletResult where
  image : List (List ℚ)
  y_axis : List ℚ
  x_axis : List ℚ
  label_y : String
deriving DecidableEq, Repr

/-- Python `str(v)` as used on enum-valued parameters (which are strings). -/
def pyStr : PValue → String
  | .s v => v
  | _ => ""

/-- `np.linspace(a, b, m)`. -/
def linspace (a b : ℚ) (m : ℕ) : List ℚ :=
  if m = 0 then []
  else if m = 1 then [a]
  else (List.range m).map fun (i : ℕ) => a + (b - a) * (i : ℚ) / ((m : ℚ) - 1)

/-- `np.nanmax` on a flattened coefficient matrix (rationals have no NaNs). -/
def maxQ (l : List ℚ) : ℚ :=
  match l with
  | [] => 0
  | h :: t => t.foldl max h

/-- `np.nanmean`. -/
def meanQ (l : List ℚ) : ℚ := l.sum / l.length

/-- The DWT/WPT `transform` (src/wavelets/builtins/dwt_wpt.py).  Windows
shorter than 16 samples are clamped to a trivial one-row zero result; the
`n ≥ 16` computation calls into PyWavelets (`pywt.wavedec` /
`pywt.WaveletPacket`) and is abstracted as the function argument `deep`. -/
def dwt_wpt_transform (deep : List ℚ → ℚ → Params → WaveletResult)
    (x : List ℚ) (fs : ℚ) (params : Params) : WaveletResult :=
  if x.length < 16 then
    { image := [List.replicate (max x.length 1) 0],
      y_axis := [0],
      x_axis := linspace 0 ((x.length : ℚ) / fs) (max x.length 1),
      label_y := "level/node" }
  else deep x fs params

/-- `_freq_grid` (src/wavelets/builtins/cwt_morlet.py).  `np.geomspace` is a
library numeric (irrational points) abstracted as the argument `geomspace`;
the repository code fixes its endpoint arguments and point count. -/
def freq_grid (geomspace : ℚ → ℚ → ℕ → List ℚ)
    (f_min f_max : ℚ) (n : ℕ) (spacing : String) : List ℚ :=
  let f_min := max f_min (1 / 1000000)
  let f_max := max f_max (f_min * (1001 / 1000))
  let n := max 2 n
  if spacing = "log" then geomspace f_min f_max n
  else linspace f_min f_max n

/-- `_scales_from_freqs`: `scale = max(cf * fs / max(f, 1e-6), 1e-6)` where
`cf = pywt.central_frequency(wavelet)` is a library constant passed in. -/
def scales_from_freqs (cf : ℚ) (freqs : List ℚ) (fs : ℚ) : List ℚ :=
  freqs.map fun f => max ((cf * fs) / max f (1 / 1000000)) (1 / 1000000)

/-- `np.abs(coefs)` or `np.abs(coefs) ** 2` depending on the magnitude mode. -/
def cwt_magnitude (magnitude : String) (coefs : List (List ℚ)) : List (List ℚ) :=
  if magnitude = "abs" then coefs.map (List.map (|·|))
  else coefs.map (List.map fun v => |v| ^ 2)

/-- The optional `max` / `zscore` post-normalization block (`np.nanstd` is a
library numeric passed in as `nstd`). -/
def cwt_post_normalize (normalize : String) (nstd : List ℚ → ℚ)
    (img : List (List ℚ)) : List (List ℚ) :=
  if normalize = "max" then
    let m := if img.flatten ≠ [] ∧ 0 < maxQ img.flatten then maxQ img.flatten else 1
    if 0 < m then img.map (List.map (· / m)) else img
  else if normalize = "zscore" then
    let mu := meanQ img.flatten
    let sd := nstd img.flatten
    if 1 / 1000000000 < sd then img.map (List.map fun v => (v - mu) / sd) else img
  else img

/-- The CWT `transform` (src/wavelets/builtins/cwt_morlet.py).  Library
numerics are abstracted as arguments: `geomspace` (log grid), `cf` (the
basis's central frequency), `pycwt` (`pywt.cwt`, whose documented output
shape is `(len(scales), len(data))`), `nstd` (`np.nanstd`, irrational).
Note there is no short-window clamp in this transform. -/
def cwt_transform (geomspace : ℚ → ℚ → ℕ → List ℚ) (cf : ℚ)
    (pycwt : List ℚ → List ℚ → List (List ℚ)) (nstd : List ℚ → ℚ)
    (x : List ℚ) (fs : ℚ) (params : Params) : WaveletResult :=
  let magnitude := pyStr (dictGetD params "magnitude" (.s "abs"))
  let normalize := pyStr (dictGetD params "normalize" (.s "none"))
  let f_min := pyFloat (dictGetD params "f_min" (.f 5))
  let f_max := pyFloat (dictGetD params "f_max" (.f (min (fs / 2) 300)))
  let f_max := min f_max (fs / 2 - 1 / 1000000)
  let n_freqs := (pyInt (dictGetD params "n_freqs" (.i 128))).toNat
  let spacing := pyStr (dictGetD params "freq_spacing" (.s "linear"))
  let freqs_target := freq_grid geomspace f_min f_max n_freqs spacing
  let scales_desc := scales_from_freqs cf freqs_target fs
  let scales_asc := scales_desc.reverse
  let coefs := (pycwt scales_asc x).reverse
  let img := cwt_post_normalize normalize nstd (cwt_magnitude magnitude coefs)
  { image := img,
    y_axis := freqs_target,
    x_axis := (List.range x.length).map fun (i : ℕ) => (i : ℚ) / fs,
    label_y := "Hz" }

/-- Modelled from the library contract (used only by concrete evaluations):
`pywt.cwt` returns coefficients of shape `(len(scales), len(data))`; only
this shape is consumed, so the entries are taken as zero. -/
def pycwt_shape_model (scales x : List ℚ) : List (List ℚ) :=
  scales.map fun _ => x.map fun _ => 0

/-- Modelled from the library contract: `np.geomspace(a, b, n)` has `n`
points; only the length is consumed by the shape facts proved here (the
concrete evaluations use linear spacing, which never calls it). -/
def geomspace_model (a _b : ℚ) (n : ℕ) : List ℚ := List.replicate n a

/-- Modelled from the library: `np.nanstd` is irrational in general; the
concrete evaluations use `normalize = "none"`, which never calls it. -/
def nstd_model (_l : List ℚ) : ℚ := 0

/-- `pywt.central_frequency("morl")` = 0.8125 (library constant; the shape
facts do not depend on it). -/
def cf_morl : ℚ := 8125 / 10000

/-- Abstraction relation: the ring buffer represents the history `hist` of all
samples appended since the last clear. -/
structure RBInv {α : Type} (rb : RingBuffer α) (hist : List α) : Prop where
  cap_pos : 0 < rb.capacity
  buf_len : rb.buf.length = rb.capacity
  write_lt : rb.write < rb.capacity
  filled_eq : rb.filled = min rb.capacity hist.length
  content : ∀ i < rb.filled,
    rb.buf[(rb.write + rb.capacity - 1 - i) % rb.capacity]? = hist[hist.length - 1 - i]?

/-! ### Ring buffer lemmas -/

theorem setSlice_length {α : Type} (buf : List α) (i : Nat) (x : List α)
    (h : i + x.length ≤ buf.length) : (setSlice buf i x).length = buf.length := by
  simp only [setSlice, List.length_append, List.length_take, List.length_drop]
  omega

theorem setSlice_getElem? {α : Type} (buf : List α) (i : Nat) (x : List α)
    (h : i + x.length ≤ buf.length) (p : Nat) :
    (setSlice buf i x)[p]? =
      if i ≤ p ∧ p < i + x.length then x[p - i]? else buf[p]? := by
  have hti : (buf.take i).length = i := by simp; omega
  unfold setSlice
  rw [List.getElem?_append]
  have hlx : (buf.take i ++ x).length = i + x.length := by simp [hti]
  rw [hlx]
  rcases Nat.lt_or_ge p (i + x.length) with hq | hq
  · rw [if_pos hq, List.getElem?_append, hti]
    rcases Nat.lt_or_ge p i with hp | hp
    · rw [if_pos hp, if_neg (by omega), List.getElem?_take, if_pos hp]
    · rw [if_neg (by omega), if_pos (by omega)]
  · rw [if_neg (by omega), if_neg (by omega), List.getElem?_drop]
    have he : i + x.length + (p - (i + x.length)) = p := by omega
    rw [he]

/-- Positions written by a non-overflow `append`: for `j < len x`, the slot
`(write + j) % capacity` holds `x[j]`. -/
theorem append_getElem?_new {α : Type} (rb : RingBuffer α) (x : List α)
    (hlen : rb.buf.length = rb.capacity) (hw : rb.write < rb.capacity)
    (hn : 0 < x.length) (hlt : x.length < rb.capacity) (j : Nat) (hj : j < x.length) :
    (rb.append x).buf[(rb.write + j) % rb.capacity]? = x[j]? := by
  have hC : 0 < rb.capacity := by omega
  unfold RingBuffer.append
  simp only [if_neg (by omega : ¬ x.length = 0), if_neg (by omega : ¬ rb.capacity ≤ x.length)]
  by_cases he : rb.write + x.length ≤ rb.capacity
  · simp only [if_pos he]
    have hmod : (rb.write + j) % rb.capacity = rb.write + j := Nat.mod_eq_of_lt (by omega)
    rw [hmod, setSlice_getElem? _ _ _ (by omega)]
    have : rb.write ≤ rb.write + j ∧ rb.write + j < rb.write + x.length := by omega
    rw [if_pos this]
    have he' : rb.write + j - rb.write = j := by omega
    rw [he']
  · simp only [if_neg he]
    set k := rb.capacity - rb.write with hk
    have hkx : (x.take k).length = k := by simp; omega
    have hinner : rb.write + (x.take k).length ≤ rb.buf.length := by rw [hkx]; omega
    have hlen' : (setSlice rb.buf rb.write (x.take k)).length = rb.buf.length :=
      setSlice_length _ _ _ hinner
    have houter : 0 + (x.drop k).length ≤ (setSlice rb.buf rb.write (x.take k)).length := by
      rw [hlen']; simp; omega
    rcases Nat.lt_or_ge j k with hjk | hjk
    · have hmod : (rb.write + j) % rb.capacity = rb.write + j := Nat.mod_eq_of_lt (by omega)
      rw [hmod, setSlice_getElem? _ _ _ houter]
      rw [if_neg (by simp only [List.length_drop]; omega)]
      rw [setSlice_getElem? _ _ _ hinner]
      rw [if_pos (by rw [hkx]; omega)]
      rw [List.getElem?_take, if_pos (by omega)]
      have he2 : rb.write + j - rb.write = j := by omega
      rw [he2]
    · have hmod : (rb.write + j) % rb.capacity = j - k := by
        rw [Nat.mod_eq_sub_mod (by omega)]
        have : rb.write + j - rb.capacity = j - k := by omega
        rw [this]
        exact Nat.mod_eq_of_lt (by omega)
      rw [hmod, setSlice_getElem? _ _ _ houter]
      rw [if_pos (by simp only [List.length_drop]; omega)]
      rw [List.getElem?_drop]
      congr 1
      omega

/-- Positions not written by a non-overflow `append`: offsets `o` with
`len x ≤ o < capacity` from the old cursor are untouched. -/
theorem append_getElem?_old {α : Type} (rb : RingBuffer α) (x : List α)
    (hlen : rb.buf.length = rb.capacity) (hw : rb.write < rb.capacity)
    (hn : 0 < x.length) (hlt : x.length < rb.capacity) (o : Nat)
    (ho₁ : x.length ≤ o) (ho₂ : o < rb.capacity) :
    (rb.append x).buf[(rb.write + o) % rb.capacity]? =
      rb.buf[(rb.write + o) % rb.capacity]? := by
  have hC : 0 < rb.capacity := by omega
  unfold RingBuffer.append
  simp only [if_neg (by omega : ¬ x.length = 0), if_neg (by omega : ¬ rb.capacity ≤ x.length)]
  by_cases he : rb.write + x.length ≤ rb.capacity
  · simp only [if_pos he]
    rcases Nat.lt_or_ge (rb.write + o) rb.capacity with hwo | hwo
    · have hmod : (rb.write + o) % rb.capacity = rb.write + o := Nat.mod_eq_of_lt hwo
      rw [hmod, setSlice_getElem? _ _ _ (by omega), if_neg (by omega)]
    · have hmod : (rb.write + o) % rb.capacity = rb.write + o - rb.capacity := by
        rw [Nat.mod_eq_sub_mod hwo]
        exact Nat.mod_eq_of_lt (by omega)
      rw [hmod, setSlice_getElem? _ _ _ (by omega), if_neg (by omega)]
  · simp only [if_neg he]
    set k := rb.capacity - rb.write with hk
    have hkx : (x.take k).length = k := by simp; omega
    have hinner : rb.write + (x.take k).length ≤ rb.buf.length := by rw [hkx]; omega
    have hlen' : (setSlice rb.buf rb.write (x.take k)).length = rb.buf.length :=
      setSlice_length _ _ _ hinner
    have houter : 0 + (x.drop k).length ≤ (setSlice rb.buf rb.write (x.take k)).length := by
      rw [hlen']; simp; omega
    have hwo : rb.capacity ≤ rb.write + o := by omega
    have hmod : (rb.write + o) % rb.capacity = o - k := by
      rw [Nat.mod_eq_sub_mod hwo]
      have : rb.write + o - rb.capacity = o - k := by omega
      rw [this]
      exact Nat.mod_eq_of_lt (by omega)
    rw [hmod, setSlice_getElem? _ _ _ houter]
    rw [if_neg (by simp only [List.length_drop]; omega)]
    rw [setSlice_getElem? _ _ _ hinner]
    rw [if_neg (by rw [hkx]; omega)]

theorem RBInv.clear {α : Type} [Zero α] (rb : RingBuffer α) (h : 0 < rb.capacity) :
    RBInv rb.clear ([] : List α) := by
  refine ⟨h, by simp [RingBuffer.clear], by simp [RingBuffer.clear]; omega,
    by simp [RingBuffer.clear], ?_⟩
  intro i hi
  simp [RingBuffer.clear] at hi

theorem RBInv.append {α : Type} {rb : RingBuffer α} {hist : List α}
    (h : RBInv rb hist) (x : List α) : RBInv (rb.append x) (hist ++ x) := by
  obtain ⟨hC, hlen, hw, hf, hcont⟩ := h
  by_cases h0 : x.length = 0
  · have hx : x = [] := List.eq_nil_of_length_eq_zero h0
    subst hx
    simpa [RingBuffer.append] using ⟨hC, hlen, hw, hf, hcont⟩
  by_cases hov : rb.capacity ≤ x.length
  · -- overflow branch: buffer replaced by last `capacity` samples of `x`
    have happ : rb.append x =
        { rb with buf := x.drop (x.length - rb.capacity), write := 0,
                  filled := rb.capacity } := by
      unfold RingBuffer.append
      rw [if_neg h0, if_pos hov]
    rw [happ]
    refine ⟨hC, by simp; omega, hC, by simp; omega, ?_⟩
    intro i hi
    simp only at hi ⊢
    have hmod : (0 + rb.capacity - 1 - i) % rb.capacity = rb.capacity - 1 - i := by
      have h1 : 0 + rb.capacity - 1 - i = rb.capacity - 1 - i := by omega
      rw [h1]
      exact Nat.mod_eq_of_lt (by omega)
    rw [hmod, List.getElem?_drop, List.length_append,
      List.getElem?_append_right (by omega)]
    have he : x.length - rb.capacity + (rb.capacity - 1 - i) =
        hist.length + x.length - 1 - i - hist.length := by omega
    rw [he]
  · -- wrap-around branch
    have hn : 0 < x.length := by omega
    have hlt : x.length < rb.capacity := by omega
    have hwrite : (rb.append x).write = (rb.write + x.length) % rb.capacity := by
      unfold RingBuffer.append
      rw [if_neg h0, if_neg hov]
    have hfilled : (rb.append x).filled = min rb.capacity (rb.filled + x.length) := by
      unfold RingBuffer.append
      rw [if_neg h0, if_neg hov]
    have hcap : (rb.append x).capacity = rb.capacity := by
      unfold RingBuffer.append
      rw [if_neg h0, if_neg hov]
    have hblen : (rb.append x).buf.length = rb.capacity := by
      unfold RingBuffer.append
      rw [if_neg h0, if_neg hov]
      by_cases he : rb.write + x.length ≤ rb.capacity
      · simp only [if_pos he]
        rw [setSlice_length _ _ _ (by omega)]
        exact hlen
      · simp only [if_neg he]
        have hkx : (x.take (rb.capacity - rb.write)).length = rb.capacity - rb.write := by
          simp; omega
        have hinner : rb.write + (x.take (rb.capacity - rb.write)).length ≤ rb.buf.length := by
          rw [hkx]; omega
        rw [setSlice_length _ _ _ (by rw [setSlice_length _ _ _ hinner]; simp; omega)]
        rw [setSlice_length _ _ _ hinner]
        exact hlen
    refine ⟨by rw [hcap]; exact hC, by rw [hblen, hcap], by rw [hwrite, hcap]; exact Nat.mod_lt _ hC,
      by rw [hfilled, hcap, hf]; simp; omega, ?_⟩
    intro i hi
    rw [hfilled, hf] at hi
    rw [hcap, hwrite]
    have hstep : ((rb.write + x.length) % rb.capacity + rb.capacity - 1 - i) % rb.capacity =
        (rb.write + x.length + (rb.capacity - 1 - i)) % rb.capacity := by
      have h1 : (rb.write + x.length) % rb.capacity + rb.capacity - 1 - i =
          (rb.write + x.length) % rb.capacity + (rb.capacity - 1 - i) := by omega
      rw [h1, Nat.mod_add_mod]
    rw [hstep, List.length_append]
    rcases Nat.lt_or_ge i x.length with hix | hix
    · -- a sample of the new batch `x`
      have he : rb.write + x.length + (rb.capacity - 1 - i) =
          rb.write + (x.length - 1 - i) + rb.capacity := by omega
      rw [he, Nat.add_mod_right]
      rw [append_getElem?_new rb x hlen hw hn hlt _ (by omega)]
      rw [List.getElem?_append_right (by omega)]
      have he2 : hist.length + x.length - 1 - i - hist.length = x.length - 1 - i := by omega
      rw [he2]
    · -- an old sample, untouched by the write
      have he : rb.write + x.length + (rb.capacity - 1 - i) =
          rb.write + (rb.capacity - 1 - (i - x.length)) := by omega
      rw [he]
      rw [append_getElem?_old rb x hlen hw hn hlt _ (by omega) (by omega)]
      have hi' : i - x.length < rb.filled := by omega
      have hold := hcont (i - x.length) hi'
      have he2 : rb.write + rb.capacity - 1 - (i - x.length) =
          rb.write + (rb.capacity - 1 - (i - x.length)) := by omega
      rw [he2] at hold
      rw [hold]
      rw [List.getElem?_append, if_pos (by omega)]
      have he3 : hist.length + x.length - 1 - i = hist.length - 1 - (i - x.length) := by
        omega
      rw [he3]

/-- `get_last` on a buffer satisfying the abstraction relation returns the
last `min n filled` samples of the history. -/
theorem RBInv.get_last_eq {α : Type} {rb : RingBuffer α} {hist : List α}
    (h : RBInv rb hist) (n : Nat) :
    rb.get_last n = lastN hist (min n rb.filled) := by
  obtain ⟨hC, hlen, hw, hf, hcont⟩ := h
  set m := min n rb.filled with hm
  have hmf : m ≤ rb.filled := by omega
  have hfl : rb.filled ≤ hist.length := by omega
  have hfc : rb.filled ≤ rb.capacity := by omega
  by_cases h0 : m = 0
  · unfold RingBuffer.get_last
    rw [← hm, if_pos h0, h0]
    unfold lastN
    rw [Nat.sub_zero, List.drop_length]
  · have hm1 : 1 ≤ m := by omega
    unfold RingBuffer.get_last
    rw [← hm, if_neg h0]
    apply List.ext_getElem?
    intro i
    have hlast : (lastN hist m)[i]? = hist[hist.length - m + i]? := by
      unfold lastN
      rw [List.getElem?_drop]
    rcases Nat.lt_or_ge rb.write m with hcase | hcase
    · -- the window wraps: tail of storage then head
      have hstart : (rb.write + rb.capacity - m) % rb.capacity =
          rb.write + rb.capacity - m := Nat.mod_eq_of_lt (by omega)
      rw [hstart, if_neg (by omega), hlast]
      rcases Nat.lt_or_ge i (m - rb.write) with hi | hi
      · rw [List.getElem?_append, if_pos (by simp [hlen]; omega), List.getElem?_drop]
        have hj := hcont (m - 1 - i) (by omega)
        have he : rb.write + rb.capacity - 1 - (m - 1 - i) =
            rb.write + rb.capacity - m + i := by omega
        rw [he] at hj
        have hmod : (rb.write + rb.capacity - m + i) % rb.capacity =
            rb.write + rb.capacity - m + i := Nat.mod_eq_of_lt (by omega)
        rw [hmod] at hj
        rw [hj]
        have he2 : hist.length - 1 - (m - 1 - i) = hist.length - m + i := by omega
        rw [he2]
      · rw [List.getElem?_append, if_neg (by simp [hlen]; omega),
          List.length_drop, hlen]
        have hidx : i - (rb.capacity - (rb.write + rb.capacity - m)) =
            i - (m - rb.write) := by omega
        rw [hidx]
        rcases Nat.lt_or_ge i m with him | him
        · rw [List.getElem?_take, if_pos (by omega)]
          have hj := hcont (m - 1 - i) (by omega)
          have he : rb.write + rb.capacity - 1 - (m - 1 - i) =
              i - (m - rb.write) + rb.capacity := by omega
          rw [he, Nat.add_mod_right, Nat.mod_eq_of_lt (by omega)] at hj
          rw [hj]
          have he3 : hist.length - 1 - (m - 1 - i) = hist.length - m + i := by omega
          rw [he3]
        · rw [List.getElem?_take, if_neg (by omega)]
          rw [List.getElem?_eq_none (by omega)]
    · -- contiguous window ending at the cursor
      have hstart : (rb.write + rb.capacity - m) % rb.capacity = rb.write - m := by
        have he : rb.write + rb.capacity - m = (rb.write - m) + rb.capacity := by omega
        rw [he, Nat.add_mod_right]
        exact Nat.mod_eq_of_lt (by omega)
      rw [hstart, if_pos (by omega), hlast]
      rcases Nat.lt_or_ge i m with him | him
      · rw [List.getElem?_take, if_pos (by omega), List.getElem?_drop]
        have hj := hcont (m - 1 - i) (by omega)
        have he : rb.write + rb.capacity - 1 - (m - 1 - i) =
            (rb.write - m + i) + rb.capacity := by omega
        rw [he, Nat.add_mod_right, Nat.mod_eq_of_lt (by omega)] at hj
        rw [hj]
        have he3 : hist.length - 1 - (m - 1 - i) = hist.length - m + i := by omega
        rw [he3]
      · rw [List.getElem?_take, if_neg (by omega)]
        rw [List.getElem?_eq_none (by omega)]

theorem RBInv.appendAll {α : Type} {rb : RingBuffer α} {hist : List α}
    (h : RBInv rb hist) (xss : List (List α)) :
    RBInv (appendAll rb xss) (hist ++ xss.flatten) := by
  induction xss generalizing rb hist with
  | nil => simpa [appendAll] using h
  | cons x xss ih =>
    have h1 := ih (h.append x)
    simpa [appendAll, List.foldl_cons] using h1

/-- C1: after a clear followed by any sequence of appends, `get_last k`
returns the most recently appended `min k filled` samples in arrival order,
where `filled = min capacity totalAppended`. -/
theorem ring_buffer_get_last_history {α : Type} [Zero α] (rb₀ : RingBuffer α)
    (hC : 0 < rb₀.capacity) (xss : List (List α)) (k : Nat) :
    (appendAll rb₀.clear xss).filled = min rb₀.capacity xss.flatten.length ∧
    (appendAll rb₀.clear xss).get_last k =
      lastN xss.flatten (min k (appendAll rb₀.clear xss).filled) := by
  have hinv : RBInv (appendAll rb₀.clear xss) xss.flatten := by
    simpa using (RBInv.clear rb₀ hC).appendAll xss
  have hcap : (appendAll rb₀.clear xss).capacity = rb₀.capacity := by
    have : ∀ (rb : RingBuffer α) (yss : List (List α)),
        (appendAll rb yss).capacity = rb.capacity := by
      intro rb yss
      induction yss generalizing rb with
      | nil => rfl
      | cons y yss ih =>
        rw [appendAll, List.foldl_cons, ← appendAll, ih]
        unfold RingBuffer.append
        dsimp only
        split <;> [rfl; split] <;> rfl
    rw [this, RingBuffer.clear]
  exact ⟨by rw [← hcap]; exact hinv.filled_eq, hinv.get_last_eq k⟩

/-- C1 witness: capacity 4, appends crossing the wrap point. -/
theorem ring_buffer_get_last_history_witness :
    (appendAll (RingBuffer.init Int 4).clear [[1, 2, 3], [4, 5], [6, 7, 8]]).get_last 4 =
      [5, 6, 7, 8] := by
  have h := ring_buffer_get_last_history (RingBuffer.init Int 4) (by decide)
    [[1, 2, 3], [4, 5], [6, 7, 8]] 4
  rw [h.2]
  decide

/-- C2: appending a batch at least as long as the capacity makes the buffer
hold exactly the last `capacity` elements of that batch, resets the cursor to
0, sets `filled = capacity`, and `get_last capacity` returns exactly those
elements; all prior history is discarded. -/
theorem ring_buffer_overflow_append {α : Type} (rb : RingBuffer α) (x : List α)
    (hC : 0 < rb.capacity) (hx : rb.capacity ≤ x.length) :
    (rb.append x).buf = lastN x rb.capacity ∧
    (rb.append x).write = 0 ∧
    (rb.append x).filled = rb.capacity ∧
    (rb.append x).get_last rb.capacity = lastN x rb.capacity := by
  have h0 : ¬ x.length = 0 := by omega
  have happ : rb.append x =
      { rb with buf := x.drop (x.length - rb.capacity), write := 0,
                filled := rb.capacity } := by
    unfold RingBuffer.append
    rw [if_neg h0, if_pos hx]
  rw [happ]
  refine ⟨rfl, rfl, rfl, ?_⟩
  unfold RingBuffer.get_last
  simp only
  rw [if_neg (by omega : ¬ min rb.capacity rb.capacity = 0)]
  have hmin : min rb.capacity rb.capacity = rb.capacity := by omega
  rw [hmin]
  have hstart : (0 + rb.capacity - rb.capacity) % rb.capacity = 0 := by
    simp
  rw [hstart, if_neg (by omega), List.drop_zero, List.take_zero, List.append_nil]
  rfl

/-- C2 witness. -/
theorem ring_buffer_overflow_append_witness :
    ((RingBuffer.init Int 4).append [1, 2, 3, 4, 5, 6]).get_last 4 = [3, 4, 5, 6] := by
  have h := ring_buffer_overflow_append (RingBuffer.init Int 4) [1, 2, 3, 4, 5, 6]
    (by decide) (by decide)
  exact h.2.2.2

/-! ### SignalEngine theorems -/

/-- C3: when the engine is paused, `generate_chunk` returns an empty sample
sequence and does not advance the clock. -/
theorem engine_paused_empty_chunk (gen : GenSem) (e : SignalEngine)
    (h : e.is_paused = true) :
    (e.generate_chunk gen).1.1 = [] ∧ (e.generate_chunk gen).2.clock = e.clock := by
  have hp : e.paused = true := h
  unfold SignalEngine.generate_chunk
  rw [if_pos hp]
  exact ⟨rfl, rfl⟩

/-- C3 witness: a concrete paused engine. -/
theorem engine_paused_empty_chunk_witness :
    ((⟨2000, 256, 0, true, 5, []⟩ : SignalEngine).is_paused = true) ∧
    (((⟨2000, 256, 0, true, 5, []⟩ : SignalEngine).generate_chunk
        (fun _ _ _ n _ => List.replicate n 0)).1.1 = [] ∧
     ((⟨2000, 256, 0, true, 5, []⟩ : SignalEngine).generate_chunk
        (fun _ _ _ n _ => List.replicate n 0)).2.clock =
       (⟨2000, 256, 0, true, 5, []⟩ : SignalEngine).clock) :=
  ⟨rfl, engine_paused_empty_chunk (fun _ _ _ n _ => List.replicate n 0) _ rfl⟩

/-- C4: with `amplitude_clip > 0` every sample of the generated chunk lies in
`[-clip, clip]`, for any components whatsoever; with `amplitude_clip = 0` no
clipping is applied: the chunk is the raw accumulator sum. -/
theorem engine_amplitude_clip_bounds (gen : GenSem) (e : SignalEngine) :
    (0 < e.amplitude_clip →
      ∀ v ∈ (e.generate_chunk gen).1.1,
        -e.amplitude_clip ≤ v ∧ v ≤ e.amplitude_clip) ∧
    (e.amplitude_clip = 0 → e.paused = false →
      (e.generate_chunk gen).1.1 =
        e.sumChunk gen ((e.clock : ℚ) / e.fs) (min e.chunk_size MAX_CHUNK) e.fs) := by
  constructor
  · intro hclip v hv
    unfold SignalEngine.generate_chunk at hv
    by_cases hp : e.paused
    · rw [if_pos hp] at hv
      simp at hv
    · rw [if_neg hp] at hv
      simp only [if_pos hclip, List.mem_map] at hv
      obtain ⟨u, _, hu⟩ := hv
      subst hu
      constructor
      · exact le_min (by linarith) (le_max_left _ _)
      · exact min_le_left _ _
  · intro h0 hp
    unfold SignalEngine.generate_chunk
    rw [if_neg (by simp [hp])]
    simp only [h0]
    rw [if_neg (by norm_num)]

/-- C4 witness: clip 1/2 against a component of constant amplitude 2. -/
theorem engine_amplitude_clip_bounds_witness :
    (0 : ℚ) < (⟨1, 1, 1/2, false, 0,
        [⟨.sine, ⟨true, []⟩⟩]⟩ : SignalEngine).amplitude_clip ∧
    ∀ v ∈ (((⟨1, 1, 1/2, false, 0, [⟨.sine, ⟨true, []⟩⟩]⟩ : SignalEngine).generate_chunk
        (fun _ _ _ n _ => List.replicate n 2)).1.1),
      -(⟨1, 1, 1/2, false, 0, [⟨.sine, ⟨true, []⟩⟩]⟩ : SignalEngine).amplitude_clip ≤ v ∧
      v ≤ (⟨1, 1, 1/2, false, 0, [⟨.sine, ⟨true, []⟩⟩]⟩ : SignalEngine).amplitude_clip := by
  refine ⟨by norm_num, ?_⟩
  exact (engine_amplitude_clip_bounds (fun _ _ _ n _ => List.replicate n 2)
    ⟨1, 1, 1/2, false, 0, [⟨.sine, ⟨true, []⟩⟩]⟩).1 (by norm_num)

/-- C10: `remove_component`, `set_component_enabled` and
`update_component_params` with an out-of-range index are silent no-ops. -/
theorem engine_out_of_range_index_noop (e : SignalEngine) (idx : ℤ)
    (h : idx < 0 ∨ (e.components.length : ℤ) ≤ idx) (b : Bool) (ps : Params) :
    e.remove_component idx = e ∧
    e.set_component_enabled idx b = e ∧
    e.update_component_params idx ps = e := by
  have hg : ¬ (0 ≤ idx ∧ idx < (e.components.length : ℤ)) := by omega
  unfold SignalEngine.remove_component SignalEngine.set_component_enabled
    SignalEngine.update_component_params
  rw [if_neg hg, if_neg hg, if_neg hg]
  exact ⟨rfl, rfl, rfl⟩

/-! ### Dict and default-filling lemmas (for the snapshot/replace round trip) -/

theorem dictGet_dictSet_self {β : Type} (d : List (String × β)) (k : String) (v : β) :
    dictGet (dictSet d k v) k = some v := by
  induction d with
  | nil => simp [dictSet, dictGet]
  | cons kv t ih =>
    obtain ⟨k', v'⟩ := kv
    by_cases h : k' = k
    · simp [dictSet, dictGet, h]
    · simp [dictSet, dictGet, h, ih]

theorem dictGet_dictSet_ne {β : Type} (d : List (String × β)) (k k' : String) (v : β)
    (h : k ≠ k') : dictGet (dictSet d k v) k' = dictGet d k' := by
  induction d with
  | nil => simp [dictSet, dictGet, h]
  | cons kv t ih =>
    obtain ⟨k₀, v₀⟩ := kv
    by_cases h₀ : k₀ = k
    · subst h₀
      simp [dictSet, dictGet, h]
    · simp only [dictSet, if_neg h₀, dictGet]
      by_cases h₁ : k₀ = k'
      · simp [h₁]
      · simp [h₁, ih]

theorem fillDefaults_of_complete (schema : List ParamSpec) (ps : Params)
    (h : ∀ s ∈ schema, dictMem ps s.key = true) : fillDefaults schema ps = ps := by
  induction schema with
  | nil => rfl
  | cons s rest ih =>
    unfold fillDefaults at ih ⊢
    rw [List.foldl_cons, if_pos (h s (List.mem_cons_self s rest))]
    exact ih fun s' hs' => h s' (List.mem_cons_of_mem s hs')

theorem fillDefaults_preserve (schema : List ParamSpec) (ps : Params) (k : String)
    (hk : k ∉ schema.map ParamSpec.key) :
    dictGet (fillDefaults schema ps) k = dictGet ps k := by
  induction schema generalizing ps with
  | nil => rfl
  | cons s rest ih =>
    simp only [List.map_cons, List.mem_cons] at hk
    push_neg at hk
    unfold fillDefaults
    rw [List.foldl_cons]
    by_cases hmem : dictMem ps s.key
    · rw [if_pos hmem]
      exact ih ps hk.2
    · rw [if_neg hmem]
      rw [show (rest.foldl (fun acc s =>
          if dictMem acc s.key then acc else dictSet acc s.key s.default)
          (dictSet ps s.key s.default)) = fillDefaults rest (dictSet ps s.key s.default)
        from rfl]
      rw [ih _ hk.2, dictGet_dictSet_ne _ _ _ _ (fun he => hk.1 he.symm)]

/-- Filling defaults: a present key keeps its value, a missing key receives
the schema default (schemas have pairwise-distinct keys). -/
theorem fillDefaults_get (schema : List ParamSpec)
    (hnd : (schema.map ParamSpec.key).Nodup) (ps : Params) (s : ParamSpec)
    (hs : s ∈ schema) :
    dictGet (fillDefaults schema ps) s.key =
      some ((dictGet ps s.key).getD s.default) := by
  induction schema generalizing ps with
  | nil => cases hs
  | cons t rest ih =>
    have hnd' := hnd
    simp only [List.map_cons, List.nodup_cons] at hnd'
    unfold fillDefaults
    rw [List.foldl_cons]
    rcases List.mem_cons.mp hs with heq | hmem
    · subst heq
      by_cases hmem : dictMem ps s.key
      · rw [if_pos hmem]
        rw [show (rest.foldl (fun acc s =>
            if dictMem acc s.key then acc else dictSet acc s.key s.default) ps) =
            fillDefaults rest ps from rfl]
        rw [fillDefaults_preserve rest ps s.key hnd'.1]
        unfold dictMem at hmem
        cases hv : dictGet ps s.key with
        | none => rw [hv] at hmem; simp at hmem
        | some v => simp [hv]
      · rw [if_neg hmem]
        rw [show (rest.foldl (fun acc s =>
            if dictMem acc s.key then acc else dictSet acc s.key s.default)
            (dictSet ps s.key s.default)) =
            fillDefaults rest (dictSet ps s.key s.default) from rfl]
        rw [fillDefaults_preserve rest _ s.key hnd'.1, dictGet_dictSet_self]
        unfold dictMem at hmem
        cases hv : dictGet ps s.key with
        | none => simp
        | some v => rw [hv] at hmem; simp at hmem
    · have hne : t.key ≠ s.key := by
        intro he
        exact hnd'.1 (he ▸ List.mem_map_of_mem ParamSpec.key hmem)
      have hget : ∀ ps₁ : Params,
          (if dictMem ps t.key then ps else dictSet ps t.key t.default) = ps₁ →
          dictGet ps₁ s.key = dictGet ps s.key := by
        intro ps₁ hps₁
        subst hps₁
        by_cases hmem₁ : dictMem ps t.key
        · rw [if_pos hmem₁]
        · rw [if_neg hmem₁, dictGet_dictSet_ne _ _ _ _ hne]
      rw [show (rest.foldl (fun acc s =>
          if dictMem acc s.key then acc else dictSet acc s.key s.default)
          (if dictMem ps t.key then ps else dictSet ps t.key t.default)) =
          fillDefaults rest (if dictMem ps t.key then ps else dictSet ps t.key t.default)
        from rfl]
      rw [ih hnd.of_cons _ hmem, hget _ rfl]

/-- `BUILTIN_COMPONENTS` maps each kind's `TYPE` string back to the kind. -/
theorem builtin_of_TYPE (k : CompKind) : BUILTIN_COMPONENTS k.TYPE = some k := by
  cases k <;> rfl

/-- The rebuild loop of `replace_components` as a `filterMap`. -/
theorem replace_components_loop (snap : List SnapEntry) (acc : List Component) :
    snap.foldl (fun acc c =>
        match BUILTIN_COMPONENTS c.type with
        | none => acc
        | some cls => acc ++ [⟨cls, ⟨c.enabled, fillDefaults cls.schema c.params⟩⟩]) acc =
      acc ++ snap.filterMap (fun c => (BUILTIN_COMPONENTS c.type).map
        (fun cls => ⟨cls, ⟨c.enabled, fillDefaults cls.schema c.params⟩⟩)) := by
  induction snap generalizing acc with
  | nil => simp
  | cons c rest ih =>
    rw [List.foldl_cons, List.filterMap_cons]
    cases hb : BUILTIN_COMPONENTS c.type with
    | none =>
      dsimp only [Option.map_none']
      exact ih acc
    | some cls =>
      dsimp only [Option.map_some']
      have hstep := ih (acc ++
        [(⟨cls, ⟨c.enabled, fillDefaults cls.schema c.params⟩⟩ : Component)])
      rw [hstep, List.append_assoc, List.singleton_append]

/-- C5: replacing with a snapshot reproduces the same component list (same
kinds, enabled flags and parameter dicts), provided every component's params
contain all its schema keys — which `add_component` and `replace_components`
both establish.  Moreover `replace_components` skips entries of unknown kind
and backfills each missing parameter key with its schema default. -/
theorem engine_snapshot_replace_roundtrip (e : SignalEngine)
    (hcomplete : ∀ c ∈ e.components, ∀ s ∈ c.kind.schema,
      dictMem c.state.params s.key = true) :
    (e.replace_components e.snapshot_components).components = e.components ∧
    (∀ snap : List SnapEntry, (e.replace_components snap).components =
      snap.filterMap (fun c => (BUILTIN_COMPONENTS c.type).map
        (fun cls => ⟨cls, ⟨c.enabled, fillDefaults cls.schema c.params⟩⟩))) ∧
    (∀ (k : CompKind) (ps : Params) (s : ParamSpec), s ∈ k.schema →
      dictGet (fillDefaults k.schema ps) s.key =
        some ((dictGet ps s.key).getD s.default)) := by
  have hloop : ∀ snap : List SnapEntry, (e.replace_components snap).components =
      snap.filterMap (fun c => (BUILTIN_COMPONENTS c.type).map
        (fun cls => ⟨cls, ⟨c.enabled, fillDefaults cls.schema c.params⟩⟩)) := by
    intro snap
    unfold SignalEngine.replace_components
    exact replace_components_loop snap []
  have haux : ∀ comps : List Component,
      (∀ c ∈ comps, ∀ s ∈ c.kind.schema, dictMem c.state.params s.key = true) →
      List.filterMap ((fun c : SnapEntry => (BUILTIN_COMPONENTS c.type).map
          (fun cls => (⟨cls, ⟨c.enabled, fillDefaults cls.schema c.params⟩⟩ : Component))) ∘
        (fun c : Component =>
          (⟨c.kind.TYPE, c.kind.NAME, c.state.enabled, c.state.params⟩ : SnapEntry)))
        comps = comps := by
    intro comps
    induction comps with
    | nil => intro _; rfl
    | cons c rest ih =>
      intro hcomp
      rw [List.filterMap_cons]
      have h1 : (BUILTIN_COMPONENTS c.kind.TYPE).map
          (fun cls => (⟨cls, ⟨c.state.enabled,
            fillDefaults cls.schema c.state.params⟩⟩ : Component)) = some c := by
        rw [builtin_of_TYPE, Option.map_some']
        rw [fillDefaults_of_complete _ _ (hcomp c (List.mem_cons_self c rest))]
      simp only [Function.comp_apply, h1]
      rw [ih fun c' hc' => hcomp c' (List.mem_cons_of_mem c hc')]
  refine ⟨?_, hloop, ?_⟩
  · rw [hloop]
    unfold SignalEngine.snapshot_components
    rw [List.filterMap_map]
    exact haux e.components hcomplete
  · intro k ps s hs
    refine fillDefaults_get k.schema ?_ ps s hs
    cases k <;> decide

/-- C5 witness: a sine component with its full default parameter dict. -/
theorem engine_snapshot_replace_roundtrip_witness :
    (∀ c ∈ (⟨2000, 256, 0, true, 0,
        [⟨.sine, ⟨true, [("amplitude", .f 1), ("frequency", .f 5), ("phase", .f 0),
          ("dc", .f 0), ("smooth_ms", .i 150)]⟩⟩]⟩ : SignalEngine).components,
      ∀ s ∈ c.kind.schema, dictMem c.state.params s.key = true) ∧
    ((⟨2000, 256, 0, true, 0,
        [⟨.sine, ⟨true, [("amplitude", .f 1), ("frequency", .f 5), ("phase", .f 0),
          ("dc", .f 0), ("smooth_ms", .i 150)]⟩⟩]⟩ : SignalEngine).replace_components
      ((⟨2000, 256, 0, true, 0,
        [⟨.sine, ⟨true, [("amplitude", .f 1), ("frequency", .f 5), ("phase", .f 0),
          ("dc", .f 0), ("smooth_ms", .i 150)]⟩⟩]⟩ :
            SignalEngine).snapshot_components)).components =
      (⟨2000, 256, 0, true, 0,
        [⟨.sine, ⟨true, [("amplitude", .f 1), ("frequency", .f 5), ("phase", .f 0),
          ("dc", .f 0), ("smooth_ms", .i 150)]⟩⟩]⟩ : SignalEngine).components := by
  have hc : ∀ c ∈ (⟨2000, 256, 0, true, 0,
      [⟨.sine, ⟨true, [("amplitude", .f 1), ("frequency", .f 5), ("phase", .f 0),
        ("dc", .f 0), ("smooth_ms", .i 150)]⟩⟩]⟩ : SignalEngine).components,
      ∀ s ∈ c.kind.schema, dictMem c.state.params s.key = true := by
    intro c hc s hs
    fin_cases hc
    fin_cases hs <;> rfl
  exact ⟨hc, (engine_snapshot_replace_roundtrip _ hc).1⟩

/-! ### Sine smoothing lemmas -/

theorem sine_smooth_get_self (cur target : Params) (key : String) (alpha : ℚ) :
    dictGet (SineComponent.smooth cur target key alpha) key =
      some (.f (pyFloat (dictGetD cur key (.f 0)) + alpha *
        (pyFloat (dictGetD target key (.f (pyFloat (dictGetD cur key (.f 0))))) -
         pyFloat (dictGetD cur key (.f 0))))) := by
  unfold SineComponent.smooth
  exact dictGet_dictSet_self _ _ _

theorem sine_smooth_get_ne (cur target : Params) (key k' : String) (alpha : ℚ)
    (h : key ≠ k') :
    dictGet (SineComponent.smooth cur target key alpha) k' = dictGet cur k' := by
  unfold SineComponent.smooth
  exact dictGet_dictSet_ne _ _ _ _ h

/-- The value of one of the four smoothed keys after the whole `_smooth`
chain of `generate`. -/
theorem sine_smooth_chain_get (cur target : Params) (alpha : ℚ) (key : String)
    (hkey : key = "amplitude" ∨ key = "frequency" ∨ key = "phase" ∨ key = "dc") :
    dictGet (SineComponent.smooth (SineComponent.smooth (SineComponent.smooth
        (SineComponent.smooth cur target "amplitude" alpha)
        target "frequency" alpha) target "phase" alpha) target "dc" alpha) key =
      some (.f (pyFloat (dictGetD cur key (.f 0)) + alpha *
        (pyFloat (dictGetD target key (.f (pyFloat (dictGetD cur key (.f 0))))) -
         pyFloat (dictGetD cur key (.f 0))))) := by
  have hpres : ∀ (d : Params) (k₀ : String), k₀ ≠ key →
      dictGetD (SineComponent.smooth d target k₀ alpha) key (.f 0) =
        dictGetD d key (.f 0) := by
    intro d k₀ hk
    unfold dictGetD
    rw [sine_smooth_get_ne _ _ _ _ _ hk]
  rcases hkey with h | h | h | h <;> subst h
  · rw [sine_smooth_get_ne _ _ _ _ _ (by decide),
      sine_smooth_get_ne _ _ _ _ _ (by decide),
      sine_smooth_get_ne _ _ _ _ _ (by decide),
      sine_smooth_get_self]
  · rw [sine_smooth_get_ne _ _ _ _ _ (by decide),
      sine_smooth_get_ne _ _ _ _ _ (by decide),
      sine_smooth_get_self, hpres _ _ (by decide)]
  · rw [sine_smooth_get_ne _ _ _ _ _ (by decide),
      sine_smooth_get_self, hpres _ _ (by decide), hpres _ _ (by decide)]
  · rw [sine_smooth_get_self, hpres _ _ (by decide), hpres _ _ (by decide),
      hpres _ _ (by decide)]

/-- C9 (amended): on an enabled tone component, each of the four smoothed
parameters moves toward its target by the fraction
`alpha = min(1, (n/fs)/(smooth_ms/1000))` of the remaining gap when
`smooth_ms > 0`; when `smooth_ms <= 0` or the chunk duration reaches the
smoothing time constant, the current value jumps fully to the target. -/
theorem sine_smoothing_step (c : SineComponent) (n : ℕ) (fs : ℚ)
    (hen : c.state.enabled = true) (key : String)
    (hkey : key = "amplitude" ∨ key = "frequency" ∨ key = "phase" ∨ key = "dc") :
    (0 < pyInt (dictGetD c.state.params "smooth_ms" (.i 150)) →
      dictGet (c.generateStep n fs).cur key =
        some (.f (pyFloat (dictGetD c.cur key (.f 0)) +
          min 1 (((n : ℚ) / fs) /
            ((pyInt (dictGetD c.state.params "smooth_ms" (.i 150)) : ℚ) / 1000)) *
          (pyFloat (dictGetD c.target key (.f (pyFloat (dictGetD c.cur key (.f 0))))) -
           pyFloat (dictGetD c.cur key (.f 0)))))) ∧
    ((pyInt (dictGetD c.state.params "smooth_ms" (.i 150)) ≤ 0 ∨
        ((pyInt (dictGetD c.state.params "smooth_ms" (.i 150)) : ℚ) / 1000 ≤ (n : ℚ) / fs
          ∧ 0 < pyInt (dictGetD c.state.params "smooth_ms" (.i 150)))) →
      ∀ tv : PValue, dictGet c.target key = some tv →
        dictGet (c.generateStep n fs).cur key = some (.f (pyFloat tv))) := by
  have hred : c.generateStep n fs =
      (let smooth_ms : ℤ := pyInt (dictGetD c.state.params "smooth_ms" (.i 150))
       let c₁ := if smooth_ms ≤ 0 then { c with cur := c.target } else c
       let alpha : ℚ := if smooth_ms ≤ 0 then 1
         else min 1 (((n : ℚ) / fs) / ((smooth_ms : ℚ) / 1000))
       { c₁ with cur :=
          (SineComponent.smooth (SineComponent.smooth (SineComponent.smooth
            (SineComponent.smooth c₁.cur c₁.target "amplitude" alpha)
            c₁.target "frequency" alpha) c₁.target "phase" alpha)
            c₁.target "dc" alpha) }) := by
    unfold SineComponent.generateStep
    rw [if_neg (by rw [hen]; simp)]
  constructor
  · intro hsm
    rw [hred]
    simp only [if_neg (by omega : ¬ pyInt (dictGetD c.state.params "smooth_ms" (.i 150)) ≤ 0)]
    exact sine_smooth_chain_get c.cur c.target _ key hkey
  · rintro (hsm | ⟨hdur, hsm⟩) <;> intro tv htv
    · rw [hred]
      simp only [if_pos hsm]
      rw [sine_smooth_chain_get c.target c.target _ key hkey]
      unfold dictGetD
      rw [htv]
      simp only [Option.getD_some]
      ring_nf
    · rw [hred]
      simp only [if_neg (by omega : ¬ pyInt (dictGetD c.state.params "smooth_ms" (.i 150)) ≤ 0)]
      rw [sine_smooth_chain_get c.cur c.target _ key hkey]
      have hsm' : (0 : ℚ) < (pyInt (dictGetD c.state.params "smooth_ms" (.i 150)) : ℚ) / 1000 := by
        have : (0 : ℚ) < (pyInt (dictGetD c.state.params "smooth_ms" (.i 150)) : ℚ) := by
          exact_mod_cast hsm
        linarith
      have halpha : min 1 (((n : ℚ) / fs) /
          ((pyInt (dictGetD c.state.params "smooth_ms" (.i 150)) : ℚ) / 1000)) = 1 := by
        rw [min_eq_left]
        rw [le_div_iff₀ hsm']
        linarith
      rw [halpha]
      unfold dictGetD
      rw [htv]
      simp only [Option.getD_some]
      ring_nf

/-- C9 witness for the amended theorem: enabled tone, chunk duration 0.3 s
with a 150 ms constant, so the value jumps fully to its target. -/
theorem sine_smoothing_step_witness :
    ((⟨⟨true, [("smooth_ms", .i 150)]⟩, [("amplitude", .f 0)],
        [("amplitude", .f 1)]⟩ : SineComponent).state.enabled = true) ∧
    dictGet ((⟨⟨true, [("smooth_ms", .i 150)]⟩, [("amplitude", .f 0)],
        [("amplitude", .f 1)]⟩ : SineComponent).generateStep 300 1000).cur "amplitude" =
      some (.f (pyFloat (.f 1))) := by
  refine ⟨rfl, ?_⟩
  refine (sine_smoothing_step _ 300 1000 rfl "amplitude" (Or.inl rfl)).2 ?_ (.f 1) rfl
  right
  constructor
  · show ((150 : ℤ) : ℚ) / 1000 ≤ (300 : ℚ) / 1000
    norm_num
  · show (0 : ℤ) < 150
    norm_num

/-- C9 counterexample against the claim as stated: (a) on a disabled tone
component `generate` does not move the current values at all, although
`smooth_ms > 0`; (b) on an enabled component the internal current value of
the non-smoothed key `smooth_ms` also stays put instead of moving toward its
target by the fraction `alpha`. -/
theorem sine_smoothing_counterexample :
    (dictGet ((⟨⟨false, [("smooth_ms", .i 150)]⟩, [("amplitude", .f 0)],
        [("amplitude", .f 1)]⟩ : SineComponent).generateStep 256 2000).cur "amplitude" =
      some (.f 0) ∧
     (.f (0 + min 1 (((256 : ℚ) / 2000) / ((150 : ℚ) / 1000)) * (1 - 0)) : PValue) ≠
       .f 0) ∧
    (dictGet ((⟨⟨true, [("smooth_ms", .i 300)]⟩,
        [("amplitude", .f 1), ("smooth_ms", .i 150)],
        [("amplitude", .f 1), ("smooth_ms", .i 300)]⟩ :
          SineComponent).generateStep 256 2000).cur "smooth_ms" =
      some (.i 150) ∧
     ∀ q : ℚ, (some (.i 150) : Option PValue) ≠ some (.f q)) := by
  refine ⟨⟨rfl, ?_⟩, ⟨rfl, by intro q h; exact PValue.noConfusion (Option.some.injEq _ _ ▸ h)⟩⟩
  have hmin : min 1 (((256 : ℚ) / 2000) / ((150 : ℚ) / 1000)) = 64 / 75 := by
    rw [min_eq_right] <;> norm_num
  rw [hmin]
  intro h
  have := PValue.f.inj h
  norm_num at this

/-! ### PluginManager theorems -/

/-- C6: a candidate whose load raises is skipped — it contributes nothing to
the registry and every other candidate is still processed; in particular,
with one well-formed and one malformed module, the registry equals the one
built from the well-formed module alone, which is retrievable. -/
theorem plugin_load_failure_skipped
    (pre post : List (Candidate × String)) (bad : Candidate) (bid : String)
    (hbad : tryLoad bad = none) (reg : Registry) :
    loadModules reg (pre ++ (bad, bid) :: post) = loadModules reg (pre ++ post) ∧
    (∀ (good : Candidate) (gid : String) (meta : Meta) (obj : Nat),
      tryLoad good = some (meta, obj) →
      reload_all [(good, gid), (bad, bid)] = reload_all [(good, gid)] ∧
      get_wavelet (reload_all [(good, gid), (bad, bid)]) (dictGetD meta "id" gid) =
        some ⟨dictGetD meta "id" gid, meta, good.modname, obj⟩) := by
  have hskip : ∀ r : Registry, load_wavelet_module r bad bid = r := by
    intro r
    unfold load_wavelet_module
    rw [hbad]
  constructor
  · unfold loadModules
    rw [List.foldl_append, List.foldl_cons]
    dsimp only
    rw [hskip, ← List.foldl_append]
  · intro good gid meta obj hgood
    have h2 : reload_all [(good, gid), (bad, bid)] = reload_all [(good, gid)] := by
      unfold reload_all loadModules
      simp only [List.foldl_cons, List.foldl_nil]
      rw [hskip]
    refine ⟨h2, ?_⟩
    rw [h2]
    unfold reload_all loadModules
    simp only [List.foldl_cons, List.foldl_nil]
    unfold load_wavelet_module
    rw [hgood]
    exact dictGet_dictSet_self _ _ _

/-- C6 witness: one malformed candidate (import raises) next to one
well-formed builtin. -/
theorem plugin_load_failure_skipped_witness :
    tryLoad ⟨"plugins.wavelets.broken", .error "boom"⟩ = none ∧
    tryLoad ⟨"wavelets.builtins.cwt_morlet",
      .ok ⟨some ⟨.ok 7⟩, some [("id", "builtin:cwt_morlet")]⟩⟩ =
        some ([("id", "builtin:cwt_morlet")], 7) ∧
    get_wavelet (reload_all
      [(⟨"wavelets.builtins.cwt_morlet",
          .ok ⟨some ⟨.ok 7⟩, some [("id", "builtin:cwt_morlet")]⟩⟩, "builtin:cwt_morlet"),
       (⟨"plugins.wavelets.broken", .error "boom"⟩, "plugin:plugins.wavelets.broken")])
      (dictGetD [("id", "builtin:cwt_morlet")] "id" "builtin:cwt_morlet") =
      some ⟨dictGetD [("id", "builtin:cwt_morlet")] "id" "builtin:cwt_morlet",
        [("id", "builtin:cwt_morlet")], "wavelets.builtins.cwt_morlet", 7⟩ := by
  refine ⟨rfl, rfl, ?_⟩
  exact ((plugin_load_failure_skipped [] [] ⟨"plugins.wavelets.broken", .error "boom"⟩
    "plugin:plugins.wavelets.broken" rfl []).2
    ⟨"wavelets.builtins.cwt_morlet",
      .ok ⟨some ⟨.ok 7⟩, some [("id", "builtin:cwt_morlet")]⟩⟩
    "builtin:cwt_morlet" [("id", "builtin:cwt_morlet")] 7 rfl).2

/-- C7: a successfully loaded plugin whose declared id differs from the
fallback id is retrievable under both keys (same `PluginInfo` contents, in
particular the same plugin object); when the ids coincide, the load is a
single dict assignment. -/
theorem plugin_dual_key_alias (reg : Registry) (c : Candidate) (plugin_id : String)
    (meta : Meta) (obj : Nat) (h : tryLoad c = some (meta, obj)) :
    (dictGetD meta "id" plugin_id ≠ plugin_id →
      get_wavelet (load_wavelet_module reg c plugin_id) plugin_id =
        some ⟨dictGetD meta "id" plugin_id, meta, c.modname, obj⟩ ∧
      get_wavelet (load_wavelet_module reg c plugin_id)
          (dictGetD meta "id" plugin_id) =
        some ⟨dictGetD meta "id" plugin_id, meta, c.modname, obj⟩) ∧
    (dictGetD meta "id" plugin_id = plugin_id →
      load_wavelet_module reg c plugin_id =
        dictSet reg plugin_id ⟨plugin_id, meta, c.modname, obj⟩) := by
  unfold load_wavelet_module get_wavelet
  rw [h]
  dsimp only
  constructor
  · intro hne
    rw [if_pos hne]
    refine ⟨?_, dictGet_dictSet_self _ _ _⟩
    rw [dictGet_dictSet_ne _ _ _ _ hne, dictGet_dictSet_self]
  · intro heq
    rw [if_neg (by simp [heq]), heq]

/-- C7 witness: declared id "builtin:cwt_morlet" differs from fallback
"fallback:mod"; both lookups succeed with the same plugin object. -/
theorem plugin_dual_key_alias_witness :
    tryLoad ⟨"m", .ok ⟨some ⟨.ok 3⟩, some [("id", "builtin:cwt_morlet")]⟩⟩ =
      some ([("id", "builtin:cwt_morlet")], 3) ∧
    dictGetD [("id", "builtin:cwt_morlet")] "id" "fallback:mod" ≠ "fallback:mod" ∧
    (get_wavelet (load_wavelet_module []
        ⟨"m", .ok ⟨some ⟨.ok 3⟩, some [("id", "builtin:cwt_morlet")]⟩⟩ "fallback:mod")
        "fallback:mod" =
      some ⟨dictGetD [("id", "builtin:cwt_morlet")] "id" "fallback:mod",
        [("id", "builtin:cwt_morlet")], "m", 3⟩ ∧
     get_wavelet (load_wavelet_module []
        ⟨"m", .ok ⟨some ⟨.ok 3⟩, some [("id", "builtin:cwt_morlet")]⟩⟩ "fallback:mod")
        (dictGetD [("id", "builtin:cwt_morlet")] "id" "fallback:mod") =
      some ⟨dictGetD [("id", "builtin:cwt_morlet")] "id" "fallback:mod",
        [("id", "builtin:cwt_morlet")], "m", 3⟩) := by
  refine ⟨rfl, by decide, ?_⟩
  exact (plugin_dual_key_alias [] ⟨"m", .ok ⟨some ⟨.ok 3⟩, some [("id", "builtin:cwt_morlet")]⟩⟩
    "fallback:mod" [("id", "builtin:cwt_morlet")] 3 rfl).1 (by decide)

/-! ### Wavelet transform theorems -/

theorem linspace_length (a b : ℚ) (m : ℕ) : (linspace a b m).length = m := by
  unfold linspace
  by_cases h0 : m = 0
  · rw [if_pos h0, h0]
    rfl
  · by_cases h1 : m = 1
    · rw [if_neg h0, if_pos h1, h1]
      rfl
    · rw [if_neg h0, if_neg h1]
      rw [List.length_map, List.length_range]

theorem freq_grid_length (geomspace : ℚ → ℚ → ℕ → List ℚ)
    (hg : ∀ a b n, (geomspace a b n).length = n)
    (f_min f_max : ℚ) (n : ℕ) (spacing : String) :
    (freq_grid geomspace f_min f_max n spacing).length = max 2 n := by
  unfold freq_grid
  dsimp only
  split
  · rw [hg]
  · rw [linspace_length]

theorem cwt_magnitude_length (magnitude : String) (coefs : List (List ℚ)) :
    (cwt_magnitude magnitude coefs).length = coefs.length := by
  unfold cwt_magnitude
  split <;> rw [List.length_map]

theorem cwt_post_normalize_length (normalize : String) (nstd : List ℚ → ℚ)
    (img : List (List ℚ)) :
    (cwt_post_normalize normalize nstd img).length = img.length := by
  unfold cwt_post_normalize
  split
  · dsimp only
    split <;> split
    · rw [List.length_map]
    · rfl
    · rw [List.length_map]
    · rfl
  · split
    · dsimp only
      split
      · rw [List.length_map]
      · rfl
    · rfl

/-- The CWT front-end always produces one image row per frequency bin:
`max 2 n_freqs` rows, for any library coefficients of the documented shape. -/
theorem cwt_transform_rows (geomspace : ℚ → ℚ → ℕ → List ℚ) (cf : ℚ)
    (pycwt : List ℚ → List ℚ → List (List ℚ)) (nstd : List ℚ → ℚ)
    (x : List ℚ) (fs : ℚ) (params : Params)
    (hg : ∀ a b n, (geomspace a b n).length = n)
    (hc : ∀ s xx, (pycwt s xx).length = s.length) :
    (cwt_transform geomspace cf pycwt nstd x fs params).image.length =
      max 2 (pyInt (dictGetD params "n_freqs" (.i 128))).toNat := by
  unfold cwt_transform
  dsimp only
  rw [cwt_post_normalize_length, cwt_magnitude_length, List.length_reverse, hc,
    List.length_reverse]
  unfold scales_from_freqs
  rw [List.length_map, freq_grid_length geomspace hg]

/-- C8 (amended): the discrete DWT/WPT variant clamps windows shorter than
16 samples to a trivial one-row all-zero result; the continuous CWT variant
has no such clamp — its image always has `max 2 n_freqs ≥ 2` rows. -/
theorem transform_degenerate_input :
    (∀ (deep : List ℚ → ℚ → Params → WaveletResult) (x : List ℚ) (fs : ℚ)
        (params : Params), x.length < 16 →
      dwt_wpt_transform deep x fs params =
        ⟨[List.replicate (max x.length 1) 0], [0],
          linspace 0 ((x.length : ℚ) / fs) (max x.length 1), "level/node"⟩ ∧
      (dwt_wpt_transform deep x fs params).image.length = 1 ∧
      ∀ row ∈ (dwt_wpt_transform deep x fs params).image, ∀ v ∈ row, v = 0) ∧
    (∀ (geomspace : ℚ → ℚ → ℕ → List ℚ) (cf : ℚ)
        (pycwt : List ℚ → List ℚ → List (List ℚ)) (nstd : List ℚ → ℚ)
        (x : List ℚ) (fs : ℚ) (params : Params),
      (∀ a b n, (geomspace a b n).length = n) →
      (∀ s xx, (pycwt s xx).length = s.length) →
      2 ≤ (cwt_transform geomspace cf pycwt nstd x fs params).image.length) := by
  constructor
  · intro deep x fs params h
    have hd : dwt_wpt_transform deep x fs params =
        ⟨[List.replicate (max x.length 1) 0], [0],
          linspace 0 ((x.length : ℚ) / fs) (max x.length 1), "level/node"⟩ := by
      unfold dwt_wpt_transform
      rw [if_pos h]
    refine ⟨hd, by rw [hd]; rfl, ?_⟩
    rw [hd]
    intro row hrow v hv
    simp only [List.mem_singleton] at hrow
    subst hrow
    exact (List.eq_of_mem_replicate hv)
  · intro geomspace cf pycwt nstd x fs params hg hc
    rw [cwt_transform_rows geomspace cf pycwt nstd x fs params hg hc]
    exact le_max_left _ _

/-- C8 witness: a 3-sample window into the DWT/WPT variant yields the
one-row zero clamp. -/
theorem transform_degenerate_input_witness :
    (([] : List ℚ).length < 16) ∧
    (dwt_wpt_transform (fun _ _ _ => ⟨[], [], [], ""⟩) [] 2000 []).image =
      [List.replicate 1 0] := by
  refine ⟨by decide, ?_⟩
  have h := (transform_degenerate_input.1 (fun _ _ _ => ⟨[], [], [], ""⟩) [] 2000 []
    (by decide)).1
  rw [h]
  rfl

/-- C8 counterexample against the claim as stated: a 3-sample window into
the CWT variant (default parameters) produces a 128-row image, not the
claimed one-row zero result (the variant has no degenerate-input clamp). -/
theorem transform_degenerate_counterexample :
    (cwt_transform geomspace_model cf_morl pycwt_shape_model nstd_model
        [0, 0, 0] 2000 []).image.length = 128 ∧ (128 : ℕ) ≠ 1 := by
  constructor
  · rw [cwt_transform_rows geomspace_model cf_morl pycwt_shape_model nstd_model
      [0, 0, 0] 2000 []
      (by intro a b n; simp [geomspace_model])
      (by intro s xx; simp [pycwt_shape_model])]
    rfl
  · decide

/-- C10 witness: index 5 on a one-component engine. -/
theorem engine_out_of_range_index_noop_witness :
    ((5 : ℤ) < 0 ∨ (((⟨2000, 256, 0, true, 0, [⟨.sine, ⟨true, []⟩⟩]⟩ :
        SignalEngine).components.length : ℤ) ≤ 5)) ∧
    (⟨2000, 256, 0, true, 0, [⟨.sine, ⟨true, []⟩⟩]⟩ : SignalEngine).remove_component 5 =
      ⟨2000, 256, 0, true, 0, [⟨.sine, ⟨true, []⟩⟩]⟩ :=
  ⟨Or.inr (by norm_num), (engine_out_of_range_index_noop _ 5
    (Or.inr (by norm_num)) true []).1⟩

end Wavelet
